import Mathlib

/-!
# Verification of `netstring-parser` (`src/src/lib.rs`)

A shallow embedding of the netstring parser: a fixed-capacity byte buffer
(`Vec<u8>` of fixed length, modelled as `List Nat` of byte values), a write
cursor `len`, incremental length scanning (`parse_length`), netstring
extraction (`parse_next`), and view release / buffer compaction (`discard`,
`Netstring::drop`).

Machine integers (`usize`) are modelled as `Nat`; the one place where
`usize` overflow matters in the source (`len + 1` in `parse_next`) is
modelled explicitly against `2 ^ 64`, and out-of-range slicing or
overflowing arithmetic is modelled as the `panic` outcome.
-/

instance {ε α : Type} [DecidableEq ε] [DecidableEq α] : DecidableEq (Except ε α) := fun x y =>
  match x, y with
  | Except.error a, Except.error b =>
    if h : a = b then isTrue (by rw [h]) else isFalse (by intro he; cases he; exact h rfl)
  | Except.error _, Except.ok _ => isFalse (by intro h; cases h)
  | Except.ok _, Except.error _ => isFalse (by intro h; cases h)
  | Except.ok a, Except.ok b =>
    if h : a = b then isTrue (by rw [h]) else isFalse (by intro he; cases he; exact h rfl)

/-- `NetstringError` from the source (all five variants, two of them unused
by the algorithm, as in the source). -/
inductive NetstringError where
  | StringTooLong : NetstringError
  | InvalidData : NetstringError
  | NoColonFound : NetstringError
  | MissingComma : NetstringError
  | InvalidLength : NetstringError
deriving DecidableEq, Repr

/-- `WriteError` from the source. -/
inductive WriteError where
  | BufferTooSmall : WriteError
deriving DecidableEq, Repr

/-- `NetstringParser { buf: Vec<u8>, len: usize }`.  `buf` is allocated once
with `vec![0; buf_size]` and never resized, so its list length is the
capacity. -/
structure NetstringParser where
  buf : List Nat
  len : Nat
deriving DecidableEq, Repr

/-- Is `b` an ASCII decimal digit (`'0'..='9'`)? -/
def isAsciiDigit (b : Nat) : Bool := 48 ≤ b && b ≤ 57

/-- Value of a list of ASCII digit bytes read as a decimal number
(the accumulation loop inside Rust's integer `from_str`). -/
def digitsVal (ds : List Nat) : Nat := ds.foldl (fun acc d => acc * 10 + (d - 48)) 0

/-- Models `std::str::from_utf8(bytes)` followed by `str::parse::<usize>()`
on a 64-bit host.  Rust's unsigned integer `FromStr` accepts an optional
leading `'+'` (byte 43) followed by one or more ASCII digits, and fails on
overflow past `usize::MAX`; parsing succeeds exactly when the accumulated
value stays below `2 ^ 64`.  Invalid UTF-8 (which makes `from_utf8` fail)
and valid UTF-8 that is not of this digit form both reach the same
`InvalidLength` path in the caller, and every non-ASCII byte is neither
`'+'` nor a digit, so the two failure modes are collapsed into `none`. -/
def parseUsize (bs : List Nat) : Option Nat :=
  let ds := if bs.head? = some 43 then bs.tail else bs
  if ds ≠ [] ∧ (∀ b ∈ ds, isAsciiDigit b) ∧ digitsVal ds < 2 ^ 64 then some (digitsVal ds)
  else none

/-- `parse_length(input)` from the source: find the first `':'` (byte 58);
if none, error `NoColonFound` when more than 20 bytes are present, else
signal "insufficient data" (`Ok(None)`); if found, decode the bytes before
the colon as a `usize` and return it with the remainder after the colon. -/
def parse_length (input : List Nat) :
    Except NetstringError (Option (Nat × List Nat)) :=
  match List.findIdx? (fun b => b == 58) input with
  | Option.none =>
    if 20 < input.length then Except.error NetstringError.NoColonFound
    else Except.ok Option.none
  | Option.some colonPos =>
    let lenBytes := input.take colonPos
    let rest := input.drop (colonPos + 1)
    match parseUsize lenBytes with
    | Option.none => Except.error NetstringError.InvalidLength
    | Option.some len => Except.ok (Option.some (len, rest))

/-- The borrowed-view data of `Netstring<'a>` (its `offset` and `length`
fields); the borrowed parser is passed explicitly where the source uses the
`parser` reference. -/
structure Netstring where
  offset : Nat
  length : Nat
deriving DecidableEq, Repr

/-- Outcome of `parse_next`: `Ok(Some(ns))` is `view ns`, `Ok(None)` is
`needMore`, `Err(e)` is `error e`, and `panic` marks control flow on which
the Rust code panics (out-of-range slicing, or `len + 1` overflowing
`usize`). -/
inductive ParseOutcome where
  | panic : ParseOutcome
  | needMore : ParseOutcome
  | view : Netstring → ParseOutcome
  | error : NetstringError → ParseOutcome
deriving DecidableEq, Repr

namespace NetstringParser

/-- `NetstringParser::new(buf_size)`: `vec![0; buf_size]` and `len = 0`. -/
def new (buf_size : Nat) : NetstringParser :=
  { buf := List.replicate buf_size 0, len := 0 }

/-- The slice-assignment `buf[pos..pos + data.len()].copy_from_slice(data)`
(meaningful when `pos + data.length ≤ buf.length`, the only way the source
calls it). -/
def listWrite (buf : List Nat) (pos : Nat) (data : List Nat) : List Nat :=
  buf.take pos ++ data ++ buf.drop (pos + data.length)

/-- `NetstringParser::write(&mut self, data)`: if `data.len() ≤ buf.len() -
self.len`, copy `data` into the buffer at `self.len` and advance `len`;
otherwise return `BufferTooSmall` and leave the state untouched.  The
post-state is returned together with the `Result` (`none` = `Ok(())`). -/
def write (p : NetstringParser) (data : List Nat) :
    NetstringParser × Option WriteError :=
  let remaining := p.buf.length - p.len
  if data.length ≤ remaining then
    ({ buf := listWrite p.buf p.len data, len := p.len + data.length }, Option.none)
  else
    (p, Option.some WriteError.BufferTooSmall)

/-- `is_buffer_full`: `self.len >= self.buf.len()`. -/
def is_buffer_full (p : NetstringParser) : Bool := p.buf.length ≤ p.len

/-- `is_buffer_empty`: `self.len == 0`. -/
def is_buffer_empty (p : NetstringParser) : Bool := p.len == 0

/-- `clear`: `self.len = 0`. -/
def clear (p : NetstringParser) : NetstringParser := { p with len := 0 }

/-- The unconsumed region `&buf[..len]` that all parsing works on. -/
def buffered (p : NetstringParser) : List Nat := p.buf.take p.len

/-- `NetstringParser::parse_next`.  The source slices `&self.buf[..self.len]`
(panics when `len > buf.len()`), runs `parse_length`, checks
`rest.len() < len + 1` (the `usize` addition `len + 1` overflows exactly
when `len = 2 ^ 64 - 1`, which panics in debug builds; in release builds the
wrapped comparison is skipped and the subsequent `rest[len]` indexes out of
bounds and panics, since a Rust slice is always shorter than `2 ^ 64`),
checks `rest[len] != b','`, and otherwise builds the `Netstring` with
`offset = self.len - rest.len()`. -/
def parse_next (p : NetstringParser) : ParseOutcome :=
  if p.buf.length < p.len then ParseOutcome.panic
  else
    match parse_length p.buffered with
    | Except.error e => ParseOutcome.error e
    | Except.ok Option.none => ParseOutcome.needMore
    | Except.ok (Option.some (len, rest)) =>
      if 2 ^ 64 ≤ len + 1 then ParseOutcome.panic
      else if rest.length < len + 1 then ParseOutcome.needMore
      else if rest.getD len 0 ≠ 44 then ParseOutcome.error NetstringError.MissingComma
      else ParseOutcome.view { offset := p.len - rest.length, length := len }

/-- `NetstringParser::discard(count)`:
`self.buf.copy_within(count..self.len, 0)` followed by
`self.len = self.len.saturating_sub(count)` (`Nat` subtraction is exactly
`saturating_sub`).  `copy_within` moves `buf[count..len]` to the front and
leaves everything from index `len - count` on unchanged. -/
def discard (p : NetstringParser) (count : Nat) : NetstringParser :=
  let seg := (p.buf.drop count).take (p.len - count)
  { buf := seg ++ p.buf.drop seg.length, len := p.len - count }

end NetstringParser

namespace Netstring

/-- `Deref for Netstring`: `&self.parser.buf[self.offset..self.offset + self.length]`. -/
def deref (ns : Netstring) (p : NetstringParser) : List Nat :=
  (p.buf.drop ns.offset).take ns.length

/-- `Drop for Netstring`: `self.parser.discard(self.offset + self.length + 1)`
(consume the netstring including the trailing comma). -/
def drop (ns : Netstring) (p : NetstringParser) : NetstringParser :=
  p.discard (ns.offset + ns.length + 1)

end Netstring

/-- `parse_next` as a state transformer: the source method takes
`&mut self` but assigns no field of `self` (it only reads the buffer and,
on success, hands the exclusive borrow to the returned `Netstring`), so the
post-state of the call is the pre-state. -/
def parse_nextS (p : NetstringParser) : NetstringParser × ParseOutcome :=
  (p, p.parse_next)

/-- Fuelled digit extraction (structural recursion so that concrete values
reduce in the kernel); `fuel > n` is always enough fuel. -/
def decimalDigitsAux : Nat → Nat → List Nat
  | 0, _ => []
  | fuel + 1, n =>
    if n < 10 then [48 + n]
    else decimalDigitsAux fuel (n / 10) ++ [48 + n % 10]

/-- The decimal ASCII digits of `n`, most significant first (`"0"` for 0):
what `format!("{n}")` produces and hence what a well-formed wire message
`<n>:...` starts with. -/
def decimalDigits (n : Nat) : List Nat := decimalDigitsAux (n + 1) n

/-- The wire form `<L>:<payload>,` of a payload `w`, where `L` is `w`'s
length in decimal ASCII. -/
def encode (w : List Nat) : List Nat :=
  decimalDigits w.length ++ 58 :: (w ++ [44])

/-- One round of the caller loop
`while let Some(ns) = parser.parse_next()? { use ns; drop ns }`, with
explicit fuel (each successful round strictly decreases `p.len`, so any
fuel above `p.len` behaves like the unbounded loop).  Collects the payload
bytes of each parsed netstring (`ns.to_vec()`), dropping (and hence
compacting) after each. -/
def drainFuel : Nat → NetstringParser → NetstringParser × List (List Nat)
  | 0, p => (p, [])
  | fuel + 1, p =>
    match p.parse_next with
    | ParseOutcome.view ns =>
      let out := drainFuel fuel (ns.drop p)
      (out.1, ns.deref p :: out.2)
    | _ => (p, [])

/-- Drain every currently complete netstring from the parser (the
`while let` loop run to completion; `p.len + 1` fuel suffices because each
round consumes at least one buffered byte). -/
def drain (p : NetstringParser) : NetstringParser × List (List Nat) :=
  drainFuel (p.len + 1) p

/-- Feed byte chunks in order: write each chunk, then parse/release every
complete netstring, collecting payloads.  Returns `none` if some write
fails with `BufferTooSmall`. -/
def feedChunks (p : NetstringParser) :
    List (List Nat) → Option (NetstringParser × List (List Nat))
  | [] => some (p, [])
  | c :: cs =>
    match p.write c with
    | (_, Option.some _) => none
    | (p1, Option.none) =>
      let d := drain p1
      match feedChunks d.1 cs with
      | Option.none => none
      | Option.some (pf, outs) => some (pf, d.2 ++ outs)


/-! ## Concrete states and predicates used by the verification -/

/-- The 21 wire bytes `"18446744073709551615:"`: a valid decimal length
prefix that decodes to `usize::MAX` on a 64-bit host. -/
def overflowInput : List Nat :=
  [49, 56, 52, 52, 54, 55, 52, 52, 48, 55, 51, 55, 48, 57, 53, 53, 49, 54, 49, 53, 58]

/-- Capacity-5 parser holding 3 bytes, for the C6 witness. -/
def parser5of3 : NetstringParser := ((NetstringParser.new 5).write [1, 2, 3]).1

/-- Parser holding the wire bytes `"5:helloX"` (wrong terminator). -/
def parserHelloX : NetstringParser :=
  ((NetstringParser.new 8).write [53, 58, 104, 101, 108, 108, 111, 88]).1

/-- Parser holding the wire bytes `"5:hello,"`. -/
def parserHello : NetstringParser :=
  ((NetstringParser.new 8).write [53, 58, 104, 101, 108, 108, 111, 44]).1

/-- The buffered bytes are a strict prefix of some well-formed netstring
whose length fits `usize`: the parser can only be waiting for more data. -/
def IncompleteFront (t : List Nat) : Prop :=
  ∃ w s, t ++ s = encode w ∧ s ≠ [] ∧ w.length + 1 < 2 ^ 64

/-- The payloads `"hello"`, `"world"`, `"bye"`. -/
def wsHWB : List (List Nat) :=
  [[104, 101, 108, 108, 111], [119, 111, 114, 108, 100], [98, 121, 101]]

/-- The chunk split `"5:he" / "llo,5:w" / "orld,3:by" / "e,"` of
`"5:hello,5:world,3:bye,"` (the split used by the repository's tests). -/
def chunksHWB : List (List Nat) :=
  [[53, 58, 104, 101], [108, 108, 111, 44, 53, 58, 119],
    [111, 114, 108, 100, 44, 51, 58, 98, 121], [101, 44]]

/-! ## Basic facts about the length scanner -/

theorem parse_length_rest_lt {input : List Nat} {n : Nat} {rest : List Nat}
    (h : parse_length input = Except.ok (Option.some (n, rest))) :
    rest.length + 1 ≤ input.length := by
  unfold parse_length at h
  split at h
  · split at h <;> simp_all
  next cp hf =>
    have hcp : cp < input.length :=
      (List.findIdx?_eq_some_iff_findIdx_eq.mp hf).1
    dsimp only at h
    split at h
    · exact absurd h (by simp)
    next v hp =>
      simp only [Except.ok.injEq, Option.some.injEq, Prod.mk.injEq] at h
      obtain ⟨-, hr⟩ := h
      subst hr
      simp only [List.length_drop]
      omega

/-- If `parseUsize` succeeds, the input was an optional `'+'` followed by
one or more ASCII digits. -/
theorem parseUsize_some_shape {bs : List Nat} {v : Nat}
    (h : parseUsize bs = Option.some v) :
    (∀ b ∈ bs, isAsciiDigit b) ∨
      (bs.head? = some 43 ∧ bs.tail ≠ [] ∧ ∀ b ∈ bs.tail, isAsciiDigit b) := by
  unfold parseUsize at h
  by_cases hh : bs.head? = some 43
  · simp only [hh, if_pos] at h
    split at h
    · next hc => exact Or.inr ⟨hh, hc.1, hc.2.1⟩
    · exact absurd h (by simp)
  · simp only [if_neg hh] at h
    split at h
    · next hc => exact Or.inl hc.2.1
    · exact absurd h (by simp)

/-! ## C2: the no-colon boundary -/

/-- C2 (amended): on a colon-free unconsumed slice the length scanner fails
with `NoColonFound` exactly when more than 20 bytes (at least 21) have been
scanned, and signals "insufficient data" exactly when,
at most 20 bytes have been scanned. -/
theorem C2_no_colon_boundary (input : List Nat) (hnc : ∀ b ∈ input, b ≠ 58) :
    (parse_length input = Except.error NetstringError.NoColonFound ↔ 20 < input.length) ∧
    (parse_length input = Except.ok Option.none ↔ input.length ≤ 20) := by
  have hf : List.findIdx? (fun b => b == 58) input = Option.none := by
    rw [List.findIdx?_eq_none_iff]
    intro x hx
    simpa using hnc x hx
  unfold parse_length
  rw [hf]
  by_cases h20 : 20 < input.length
  · simp [h20]
  · simp [h20]
    omega

/-- C2 counterexample: a colon-free slice on which "at least the first 20
bytes have been scanned" (all 20 of its bytes), yet the scanner signals
"insufficient data" rather than failing with `NoColonFound`. -/
theorem C2_twenty_no_colon_bytes_not_an_error :
    (List.replicate 20 120 : List Nat).length = 20 ∧
    parse_length (List.replicate 20 120) = Except.ok Option.none ∧
    parse_length (List.replicate 20 120) ≠ Except.error NetstringError.NoColonFound := by
  decide

/-- Witness for `C2_no_colon_boundary` at 21 `'x'` bytes. -/
theorem C2_no_colon_boundary_witness :
    (parse_length (List.replicate 21 120) = Except.error NetstringError.NoColonFound ↔
      20 < (List.replicate 21 (120 : Nat)).length) ∧
    (parse_length (List.replicate 21 120) = Except.ok Option.none ↔
      (List.replicate 21 (120 : Nat)).length ≤ 20) :=
  C2_no_colon_boundary (List.replicate 21 120) (by decide)

/-! ## C3: non-digit length bytes -/

/-- C3 (amended): if the bytes before the first `':'` of the unconsumed
slice contain a byte that is not an ASCII decimal digit, and they are not of
the exceptional form `'+'` followed by one or more ASCII digits (which
Rust's `str::parse::<usize>` accepts; a bare `'+'` with no digits is still
rejected), then `parse_next` fails with `InvalidLength`. -/
theorem C3_invalid_length (p : NetstringParser) (cp : Nat)
    (hlen : p.len ≤ p.buf.length)
    (hcolon : List.findIdx? (fun b => b == 58) p.buffered = Option.some cp)
    (hnd : ¬ ∀ b ∈ p.buffered.take cp, isAsciiDigit b)
    (hplus : ¬ ((p.buffered.take cp).head? = some 43 ∧
        (p.buffered.take cp).tail ≠ [] ∧
        ∀ b ∈ (p.buffered.take cp).tail, isAsciiDigit b)) :
    p.parse_next = ParseOutcome.error NetstringError.InvalidLength := by
  have hpu : parseUsize (p.buffered.take cp) = Option.none := by
    cases hv : parseUsize (p.buffered.take cp) with
    | none => rfl
    | some v =>
      rcases parseUsize_some_shape hv with hall | ⟨hh, hne, ht⟩
      · exact absurd hall hnd
      · exact absurd ⟨hh, hne, ht⟩ hplus
  have hl : parse_length p.buffered = Except.error NetstringError.InvalidLength := by
    unfold parse_length
    rw [hcolon]
    dsimp only
    rw [hpu]
  unfold NetstringParser.parse_next
  rw [if_neg (by omega), hl]

/-- C3 counterexample: the wire bytes `"+5:hello,"` have a non-digit (a
leading `'+'`) before the colon, yet `parse_next` accepts them and returns
the view of `"hello"` instead of failing with `InvalidLength`. -/
theorem C3_leading_plus_is_accepted :
    ((NetstringParser.new 9).write [43, 53, 58, 104, 101, 108, 108, 111, 44]).1.parse_next
      = ParseOutcome.view { offset := 3, length := 5 } ∧
    ((NetstringParser.new 9).write [43, 53, 58, 104, 101, 108, 108, 111, 44]).1.parse_next
      ≠ ParseOutcome.error NetstringError.InvalidLength := by
  decide

/-- Witness for `C3_invalid_length` on the wire bytes `"x:bad,"`. -/
theorem C3_invalid_length_witness :
    ((NetstringParser.new 6).write [120, 58, 98, 97, 100, 44]).1.parse_next
      = ParseOutcome.error NetstringError.InvalidLength :=
  C3_invalid_length _ 1 (by decide) (by decide) (by decide) (by decide)

/-! ## C4: totality of `parse_next` -/


/-- C4 fails on the code: from the reachable state obtained by writing
`"18446744073709551615:"` into a fresh parser of capacity 21 (a state with
`used ≤ capacity`), `parse_next` panics — the declared length decodes to
`usize::MAX`, so the `len + 1` in the payload-completeness check overflows
(debug builds panic on the addition; release builds wrap, skip the
completeness check, and panic on the out-of-bounds `rest[len]`). -/
theorem C4_parse_next_panics_on_usize_max_length :
    ((NetstringParser.new 21).write overflowInput).2 = Option.none ∧
    ((NetstringParser.new 21).write overflowInput).1.len
      ≤ ((NetstringParser.new 21).write overflowInput).1.buf.length ∧
    ((NetstringParser.new 21).write overflowInput).1.parse_next = ParseOutcome.panic := by
  decide

/-! ## C6: write capacity boundary and atomicity -/

/-- C6: with `used ≤ capacity`, `write(data)` succeeds and advances `used`
by `data.length` exactly when `data.length ≤ capacity - used`; otherwise it
fails with `BufferTooSmall` and returns the state completely unchanged. -/
theorem C6_write_boundary (p : NetstringParser) (data : List Nat)
    (_hlen : p.len ≤ p.buf.length) :
    (((p.write data).2 = Option.none ∧ (p.write data).1.len = p.len + data.length) ↔
      data.length ≤ p.buf.length - p.len) ∧
    (¬ data.length ≤ p.buf.length - p.len →
      ((p.write data).2 = Option.some WriteError.BufferTooSmall ∧ (p.write data).1 = p)) := by
  unfold NetstringParser.write
  by_cases h : data.length ≤ p.buf.length - p.len
  · simp [h]
  · simp [h]


/-- Witness for `C6_write_boundary`: capacity 5 with 3 bytes used, writing
2 more bytes (exactly `capacity - used`). -/
theorem C6_write_boundary_witness :
    (((parser5of3.write [4, 5]).2 = Option.none ∧
      (parser5of3.write [4, 5]).1.len = parser5of3.len + [4, 5].length) ↔
      [4, 5].length ≤ parser5of3.buf.length - parser5of3.len) ∧
    (¬ [4, 5].length ≤ parser5of3.buf.length - parser5of3.len →
      ((parser5of3.write [4, 5]).2 = Option.some WriteError.BufferTooSmall ∧
        (parser5of3.write [4, 5]).1 = parser5of3)) :=
  C6_write_boundary parser5of3 [4, 5] (by decide)

/-! ## C7: parse errors are stable -/

/-- C7: if `parse_next` returns an error, the call leaves the parser state
(buffer contents and `used` count) unchanged, and an immediate second call
on that state returns the same error.  In the source `parse_next` takes
`&mut self` but assigns no field, which `parse_nextS` records by returning
the pre-state as the post-state. -/
theorem C7_parse_error_stable (p : NetstringParser) (e : NetstringError)
    (h : (parse_nextS p).2 = ParseOutcome.error e) :
    (parse_nextS p).1 = p ∧
    (parse_nextS (parse_nextS p).1).2 = ParseOutcome.error e :=
  ⟨rfl, h⟩

/-- Witness for `C7_parse_error_stable` on the wire bytes `"x:bad,"`. -/
theorem C7_parse_error_stable_witness :
    (parse_nextS ((NetstringParser.new 6).write [120, 58, 98, 97, 100, 44]).1).1 =
      ((NetstringParser.new 6).write [120, 58, 98, 97, 100, 44]).1 ∧
    (parse_nextS (parse_nextS ((NetstringParser.new 6).write [120, 58, 98, 97, 100, 44]).1).1).2 =
      ParseOutcome.error NetstringError.InvalidLength :=
  C7_parse_error_stable ((NetstringParser.new 6).write [120, 58, 98, 97, 100, 44]).1
    NetstringError.InvalidLength (by decide)

/-! ## C8: missing delimiter -/

/-- C8: if the length scanner decodes `(n, rest)` from the unconsumed
slice, `rest` holds at least `n + 1` bytes, and the byte right after the
`n` payload bytes is not `','` (byte 44), then `parse_next` fails with
`MissingComma`. -/
theorem C8_missing_comma (p : NetstringParser) (n : Nat) (rest : List Nat)
    (hlen : p.len ≤ p.buf.length) (hcap : p.buf.length < 2 ^ 64)
    (h : parse_length p.buffered = Except.ok (Option.some (n, rest)))
    (hrest : n + 1 ≤ rest.length) (hcomma : rest.getD n 0 ≠ 44) :
    p.parse_next = ParseOutcome.error NetstringError.MissingComma := by
  have hrl := parse_length_rest_lt h
  have hbl : p.buffered.length ≤ p.buf.length := by
    simp only [NetstringParser.buffered, List.length_take]
    omega
  unfold NetstringParser.parse_next
  rw [if_neg (by omega), h]
  dsimp only
  rw [if_neg (by omega), if_neg (by omega), if_pos hcomma]


/-- Witness for `C8_missing_comma` on `"5:helloX"`. -/
theorem C8_missing_comma_witness :
    parserHelloX.parse_next = ParseOutcome.error NetstringError.MissingComma :=
  C8_missing_comma parserHelloX 5 [104, 101, 108, 108, 111, 88]
    (by decide) (by decide) (by decide) (by decide) (by decide)

/-! ## C9: view well-formedness invariant -/

/-- C9: any view returned by a successful `parse_next` satisfies
`offset + length + 1 ≤ used` at the moment of creation. -/
theorem C9_view_invariant (p : NetstringParser) (ns : Netstring)
    (h : p.parse_next = ParseOutcome.view ns) :
    ns.offset + ns.length + 1 ≤ p.len := by
  unfold NetstringParser.parse_next at h
  split at h
  · exact absurd h (by simp)
  next hle =>
    split at h
    · exact absurd h (by simp)
    · exact absurd h (by simp)
    next n rest hpl =>
      split at h
      · exact absurd h (by simp)
      split at h
      · exact absurd h (by simp)
      split at h
      · exact absurd h (by simp)
      next hnlt =>
        have hrl := parse_length_rest_lt hpl
        have hbl : p.buffered.length ≤ p.len := by
          simp only [NetstringParser.buffered, List.length_take]
          omega
        injection h with h'
        subst h'
        dsimp only
        omega


/-- Witness for `C9_view_invariant` on `"5:hello,"`. -/
theorem C9_view_invariant_witness :
    (Netstring.mk 2 5).offset + (Netstring.mk 2 5).length + 1 ≤ parserHello.len :=
  C9_view_invariant parserHello (Netstring.mk 2 5) (by decide)

/-! ## C5: compaction on release -/

/-- C5: releasing a live view `ns` (with the C9 invariant
`offset + length + 1 ≤ used` and `used ≤ capacity`) sets `used` to
`used - (offset + length + 1)`, moves the bytes
`[offset + length + 1, used)` of the unconsumed region down to start at
index 0 with content preserved in order, and afterwards `is_buffer_empty`
holds iff no unconsumed bytes remained after the consumed netstring. -/
theorem C5_compaction (p : NetstringParser) (ns : Netstring)
    (hlen : p.len ≤ p.buf.length)
    (hinv : ns.offset + ns.length + 1 ≤ p.len) :
    (ns.drop p).len = p.len - (ns.offset + ns.length + 1) ∧
    (ns.drop p).buffered = p.buffered.drop (ns.offset + ns.length + 1) ∧
    ((ns.drop p).is_buffer_empty = true ↔ p.len = ns.offset + ns.length + 1) := by
  unfold Netstring.drop NetstringParser.discard
  dsimp only
  refine ⟨rfl, ?_, ?_⟩
  · unfold NetstringParser.buffered
    dsimp only
    have hl : ((p.buf.drop (ns.offset + ns.length + 1)).take
        (p.len - (ns.offset + ns.length + 1))).length =
        p.len - (ns.offset + ns.length + 1) := by
      simp only [List.length_take, List.length_drop]
      omega
    rw [List.drop_take, List.take_left' hl]
  · unfold NetstringParser.is_buffer_empty
    dsimp only
    simp only [beq_iff_eq]
    omega

/-- Witness for `C5_compaction`: releasing the view of `"hello"` over the
`"5:hello,"` parser empties the buffer. -/
theorem C5_compaction_witness :
    ((Netstring.mk 2 5).drop parserHello).len =
      parserHello.len - ((Netstring.mk 2 5).offset + (Netstring.mk 2 5).length + 1) ∧
    ((Netstring.mk 2 5).drop parserHello).buffered =
      parserHello.buffered.drop ((Netstring.mk 2 5).offset + (Netstring.mk 2 5).length + 1) ∧
    (((Netstring.mk 2 5).drop parserHello).is_buffer_empty = true ↔
      parserHello.len = (Netstring.mk 2 5).offset + (Netstring.mk 2 5).length + 1) :=
  C5_compaction parserHello (Netstring.mk 2 5) (by decide) (by decide)

/-! ## Decimal digits of a length prefix -/

theorem digitsVal_append_last (l : List Nat) (d : Nat) :
    digitsVal (l ++ [d]) = digitsVal l * 10 + (d - 48) := by
  unfold digitsVal
  rw [List.foldl_append]
  rfl

theorem decimalDigitsAux_spec (fuel : Nat) :
    ∀ n, n < fuel →
      decimalDigitsAux fuel n ≠ [] ∧
      (∀ b ∈ decimalDigitsAux fuel n, 48 ≤ b ∧ b ≤ 57) ∧
      digitsVal (decimalDigitsAux fuel n) = n := by
  induction fuel with
  | zero => intro n hn; omega
  | succ fuel ih =>
    intro n hn
    unfold decimalDigitsAux
    by_cases h10 : n < 10
    · rw [if_pos h10]
      refine ⟨by simp, ?_, ?_⟩
      · intro b hb
        simp only [List.mem_singleton] at hb
        omega
      · unfold digitsVal
        simp only [List.foldl_cons, List.foldl_nil]
        omega
    · rw [if_neg h10]
      have hdiv : n / 10 < n := Nat.div_lt_self (by omega) (by omega)
      obtain ⟨hne, hdig, hval⟩ := ih (n / 10) (by omega)
      refine ⟨by simp, ?_, ?_⟩
      · intro b hb
        rcases List.mem_append.mp hb with hb | hb
        · exact hdig b hb
        · simp only [List.mem_singleton] at hb
          have := Nat.mod_lt n (show 0 < 10 by omega)
          omega
      · rw [digitsVal_append_last, hval]
        have := Nat.div_add_mod n 10
        omega

theorem decimalDigits_ne_nil (n : Nat) : decimalDigits n ≠ [] :=
  (decimalDigitsAux_spec (n + 1) n (by omega)).1

theorem decimalDigits_digits (n : Nat) : ∀ b ∈ decimalDigits n, 48 ≤ b ∧ b ≤ 57 :=
  (decimalDigitsAux_spec (n + 1) n (by omega)).2.1

theorem digitsVal_decimalDigits (n : Nat) : digitsVal (decimalDigits n) = n :=
  (decimalDigitsAux_spec (n + 1) n (by omega)).2.2

theorem decimalDigits_no_colon (n : Nat) : ∀ b ∈ decimalDigits n, b ≠ 58 := by
  intro b hb
  have := decimalDigits_digits n b hb
  omega

theorem decimalDigitsAux_length (fuel : Nat) :
    ∀ n k, n < fuel → n < 10 ^ (k + 1) → (decimalDigitsAux fuel n).length ≤ k + 1 := by
  induction fuel with
  | zero => intro n k hn; omega
  | succ fuel ih =>
    intro n k hn hk
    unfold decimalDigitsAux
    by_cases h10 : n < 10
    · rw [if_pos h10]
      simp
    · rw [if_neg h10]
      have hdiv : n / 10 < n := Nat.div_lt_self (by omega) (by omega)
      cases k with
      | zero =>
        have h1 : (10 : Nat) ^ (0 + 1) = 10 := by norm_num
        rw [h1] at hk
        omega
      | succ k =>
        have hk' : n / 10 < 10 ^ (k + 1) := by
          rw [Nat.div_lt_iff_lt_mul (by omega : 0 < 10)]
          calc n < 10 ^ (k + 1 + 1) := hk
          _ = 10 ^ (k + 1) * 10 := by rw [pow_succ]
        have := ih (n / 10) k (by omega) hk'
        simp only [List.length_append, List.length_cons, List.length_nil]
        omega

/-- A length below `10 ^ 20` (in particular any length below `2 ^ 64`)
has at most 20 decimal digits, so the colon of a well-formed netstring is
always inside the 20-byte scan window. -/
theorem decimalDigits_length_le (n : Nat) (h : n < 10 ^ 20) :
    (decimalDigits n).length ≤ 20 :=
  decimalDigitsAux_length (n + 1) n 19 (by omega) h

theorem two_pow_64_le_ten_pow_20 : (2 : Nat) ^ 64 ≤ 10 ^ 20 := by norm_num

/-- Rust's `usize` parser accepts exactly the decimal print of `n` back to
`n`, for any `n` that fits in `usize`. -/
theorem parseUsize_decimalDigits (n : Nat) (h : n < 2 ^ 64) :
    parseUsize (decimalDigits n) = Option.some n := by
  have hne := decimalDigits_ne_nil n
  have hdig := decimalDigits_digits n
  have hval := digitsVal_decimalDigits n
  have hh : ¬ (decimalDigits n).head? = some 43 := by
    obtain ⟨x, xs, hl⟩ := List.exists_cons_of_ne_nil hne
    rw [hl]
    have hx : 48 ≤ x ∧ x ≤ 57 := hdig x (by rw [hl]; simp)
    simp only [List.head?_cons, Option.some.injEq]
    omega
  unfold parseUsize
  dsimp only
  rw [if_neg hh,
    if_pos ⟨hne, fun b hb => by have := hdig b hb; simp [isAsciiDigit]; omega,
      by rw [hval]; exact h⟩, hval]

/-! ## Parsing a well-formed netstring at the front of the buffer -/

theorem findIdx?_colon_append (l r : List Nat) (hl : ∀ b ∈ l, b ≠ 58) :
    List.findIdx? (fun b => b == 58) (l ++ 58 :: r) = Option.some l.length := by
  rw [List.findIdx?_append]
  have h1 : List.findIdx? (fun b => b == 58) l = Option.none := by
    rw [List.findIdx?_eq_none_iff]
    intro x hx
    simpa using hl x hx
  rw [h1]
  simp [List.findIdx?_cons]

theorem parse_length_digits_front (n : Nat) (r : List Nat) (hn : n < 2 ^ 64) :
    parse_length (decimalDigits n ++ 58 :: r) = Except.ok (Option.some (n, r)) := by
  have hf := findIdx?_colon_append (decimalDigits n) r (decimalDigits_no_colon n)
  unfold parse_length
  rw [hf]
  dsimp only
  rw [List.take_left, List.drop_append 1]
  rw [parseUsize_decimalDigits n hn]
  rfl

theorem encode_eq_cons (w t : List Nat) :
    encode w ++ t = decimalDigits w.length ++ 58 :: (w ++ 44 :: t) := by
  simp [encode]

theorem parse_length_encode_front (w t : List Nat) (hw : w.length < 2 ^ 64) :
    parse_length (encode w ++ t) = Except.ok (Option.some (w.length, w ++ 44 :: t)) := by
  rw [encode_eq_cons, parse_length_digits_front _ _ hw]

theorem encode_length (w : List Nat) :
    (encode w).length = (decimalDigits w.length).length + w.length + 2 := by
  simp [encode]
  omega

theorem encode_ne_nil (w : List Nat) : encode w ≠ [] := by
  intro h
  have := congrArg List.length h
  rw [encode_length] at this
  simp at this

theorem decimalDigits_length_pos (n : Nat) : 0 < (decimalDigits n).length :=
  List.length_pos.mpr (decimalDigits_ne_nil n)

/-! ## State helpers: `write`, `discard`, empty buffer -/

theorem write_eq (p : NetstringParser) (data : List Nat)
    (h : data.length ≤ p.buf.length - p.len) :
    p.write data =
      ({ buf := NetstringParser.listWrite p.buf p.len data, len := p.len + data.length },
        Option.none) := by
  unfold NetstringParser.write
  rw [if_pos h]

theorem write_spec (p : NetstringParser) (data : List Nat)
    (hlen : p.len ≤ p.buf.length) (h : data.length ≤ p.buf.length - p.len) :
    (p.write data).2 = Option.none ∧
    (p.write data).1.len = p.len + data.length ∧
    (p.write data).1.buf.length = p.buf.length ∧
    (p.write data).1.buffered = p.buffered ++ data := by
  rw [write_eq p data h]
  refine ⟨rfl, rfl, ?_, ?_⟩
  · unfold NetstringParser.listWrite
    simp only [List.length_append, List.length_take, List.length_drop]
    omega
  · unfold NetstringParser.buffered NetstringParser.listWrite
    dsimp only
    have hb : p.buf.take p.len ++ data ++ p.buf.drop (p.len + data.length) =
        (p.buf.take p.len ++ data) ++ p.buf.drop (p.len + data.length) := by
      simp [List.append_assoc]
    rw [hb, List.take_left' (by simp only [List.length_append, List.length_take]; omega)]

theorem discard_spec (p : NetstringParser) (k : Nat)
    (hlen : p.len ≤ p.buf.length) (hk : k ≤ p.len) :
    (p.discard k).len = p.len - k ∧
    (p.discard k).buf.length = p.buf.length ∧
    (p.discard k).buffered = p.buffered.drop k := by
  unfold NetstringParser.discard
  dsimp only
  have hsl : ((p.buf.drop k).take (p.len - k)).length = p.len - k := by
    simp only [List.length_take, List.length_drop]
    omega
  refine ⟨rfl, ?_, ?_⟩
  · simp only [List.length_append, List.length_drop, hsl]
    omega
  · unfold NetstringParser.buffered
    dsimp only
    rw [List.drop_take, List.take_left' hsl]

theorem parse_next_nil (p : NetstringParser)
    (hlen : p.len ≤ p.buf.length) (h : p.buffered = []) :
    p.parse_next = ParseOutcome.needMore := by
  unfold NetstringParser.parse_next
  rw [if_neg (by omega), h]
  rfl

/-! ## `parse_next` on a buffer holding a complete netstring up front -/

theorem buffered_length (p : NetstringParser) (hlen : p.len ≤ p.buf.length) :
    p.buffered.length = p.len := by
  simp only [NetstringParser.buffered, List.length_take]
  omega

theorem parse_next_complete (p : NetstringParser) (w t : List Nat)
    (hlen : p.len ≤ p.buf.length) (hcap : p.buf.length < 2 ^ 64)
    (hbuf : p.buffered = encode w ++ t) :
    p.parse_next = ParseOutcome.view
      { offset := (decimalDigits w.length).length + 1, length := w.length } := by
  have hblen : p.buffered.length = p.len := buffered_length p hlen
  have hplen : p.len =
      (decimalDigits w.length).length + 1 + (w.length + 1) + t.length := by
    rw [← hblen, hbuf]
    simp only [List.length_append, encode_length]
    omega
  have hwlt : w.length + 1 < 2 ^ 64 := by omega
  unfold NetstringParser.parse_next
  rw [if_neg (by omega), hbuf, parse_length_encode_front w t (by omega)]
  dsimp only
  rw [if_neg (by omega)]
  have hrlen : (w ++ 44 :: t).length = w.length + 1 + t.length := by
    simp
    omega
  rw [if_neg (by omega)]
  have hget : (w ++ 44 :: t).getD w.length 0 = 44 := by
    rw [List.getD_eq_getElem?_getD, List.getElem?_append_right (Nat.le_refl _)]
    simp
  rw [if_neg (by rw [hget]; omega)]
  simp only [ParseOutcome.view.injEq, Netstring.mk.injEq]
  constructor
  · rw [hrlen]
    omega
  · trivial

theorem deref_complete (p : NetstringParser) (w t : List Nat)
    (hbuf : p.buffered = encode w ++ t) :
    (Netstring.mk ((decimalDigits w.length).length + 1) w.length).deref p = w := by
  unfold Netstring.deref
  dsimp only
  have hbuf' : p.buf.take p.len = encode w ++ t := hbuf
  have hb : p.buf = decimalDigits w.length ++ 58 ::
      (w ++ 44 :: (t ++ p.buf.drop p.len)) := by
    conv_lhs => rw [← List.take_append_drop p.len p.buf]
    rw [hbuf', encode_eq_cons]
    simp [List.append_assoc]
  rw [hb, List.drop_append 1]
  simp only [List.drop_succ_cons, List.drop_zero]
  rw [List.take_left' rfl]

theorem encode_def (w : List Nat) :
    encode w = decimalDigits w.length ++ 58 :: (w ++ [44]) := rfl

/-- A buffered region that is a strict prefix of a well-formed netstring
makes `parse_next` report "need more data" (`Ok(None)`): either the colon
has not arrived yet (and at most 20 bytes — the digits of a length below
`2 ^ 64` — are buffered), or the payload/terminator is still short. -/
theorem parse_next_incomplete (p : NetstringParser) (w s : List Nat)
    (hlen : p.len ≤ p.buf.length)
    (hw : w.length + 1 < 2 ^ 64)
    (hbuf : p.buffered ++ s = encode w) (hs : s ≠ []) :
    p.parse_next = ParseOutcome.needMore := by
  have hdL : (decimalDigits w.length).length ≤ 20 :=
    decimalDigits_length_le w.length
      (by have := two_pow_64_le_ten_pow_20; omega)
  have hsl : 0 < s.length := List.length_pos.mpr hs
  have hL : (encode w).length =
      (decimalDigits w.length).length + w.length + 2 := encode_length w
  obtain ⟨k, hkbuf, hkval⟩ :
      ∃ k, p.buffered = (encode w).take k ∧ k = p.buffered.length :=
    ⟨p.buffered.length, by rw [← hbuf, List.take_left], rfl⟩
  have hkL : k + s.length = (encode w).length := by
    rw [hkval, ← List.length_append, hbuf]
  by_cases hcase : k ≤ (decimalDigits w.length).length
  · -- still scanning inside the digits: no colon yet, at most 20 bytes
    have htd : p.buffered = (decimalDigits w.length).take k := by
      rw [hkbuf, encode_def, List.take_append_of_le_length hcase]
    have hfnone : List.findIdx? (fun b => b == 58) p.buffered = Option.none := by
      rw [List.findIdx?_eq_none_iff]
      intro x hx
      rw [htd] at hx
      have hxd := decimalDigits_no_colon w.length x (List.take_subset _ _ hx)
      simpa using hxd
    have hplt : parse_length p.buffered = Except.ok Option.none := by
      unfold parse_length
      rw [hfnone, if_neg (by omega)]
    unfold NetstringParser.parse_next
    rw [if_neg (by omega), hplt]
  · -- colon found, but fewer than `len + 1` bytes after it
    obtain ⟨m, hm⟩ : ∃ m, k - (decimalDigits w.length).length = m + 1 :=
      ⟨k - (decimalDigits w.length).length - 1, by omega⟩
    have htu : p.buffered = decimalDigits w.length ++ 58 :: ((w ++ [44]).take m) := by
      rw [hkbuf, encode_def, List.take_append_eq_append_take,
        List.take_of_length_le (by omega), hm, List.take_succ_cons]
    have hult : ((w ++ [44]).take m).length < w.length + 1 := by
      simp only [List.length_take, List.length_append, List.length_cons,
        List.length_nil]
      omega
    unfold NetstringParser.parse_next
    rw [if_neg (by omega), htu, parse_length_digits_front w.length _ (by omega)]
    dsimp only
    rw [if_neg (by omega), if_pos hult]

/-! ## C1: round-trip -/

/-- C1: writing the wire form `<L>:p,` of any payload `p` into a fresh
parser (capacity at least the wire form, capacity a valid `usize`) makes
`parse_next` return the view of exactly `p`'s bytes; after the view is
released, a further `parse_next` reports "no netstring yet" and the
unconsumed region is empty (`used = 0`), so none of `p`'s bytes remain in
it. -/
theorem C1_round_trip (c : Nat) (w : List Nat)
    (hfit : (encode w).length ≤ c) (hc : c < 2 ^ 64) :
    ((NetstringParser.new c).write (encode w)).2 = Option.none ∧
    ((NetstringParser.new c).write (encode w)).1.parse_next =
      ParseOutcome.view (Netstring.mk ((decimalDigits w.length).length + 1) w.length) ∧
    (Netstring.mk ((decimalDigits w.length).length + 1) w.length).deref
      ((NetstringParser.new c).write (encode w)).1 = w ∧
    ((Netstring.mk ((decimalDigits w.length).length + 1) w.length).drop
      ((NetstringParser.new c).write (encode w)).1).parse_next = ParseOutcome.needMore ∧
    ((Netstring.mk ((decimalDigits w.length).length + 1) w.length).drop
      ((NetstringParser.new c).write (encode w)).1).len = 0 := by
  have hnew_len : (NetstringParser.new c).len = 0 := rfl
  have hnew_buflen : (NetstringParser.new c).buf.length = c := by
    simp [NetstringParser.new]
  have hnew_buffered : (NetstringParser.new c).buffered = [] := by
    simp [NetstringParser.new, NetstringParser.buffered]
  obtain ⟨hw2, hwlen, hwbuflen, hwbuffered⟩ :=
    write_spec (NetstringParser.new c) (encode w) (by omega) (by omega)
  rw [hnew_buffered] at hwbuffered
  rw [hnew_len] at hwlen
  simp only [List.nil_append] at hwbuffered
  simp only [Nat.zero_add] at hwlen
  set p1 := ((NetstringParser.new c).write (encode w)).1 with hp1
  have hc1 : p1.buf.length < 2 ^ 64 := by
    rw [hwbuflen, hnew_buflen]
    exact hc
  have hlen1 : p1.len ≤ p1.buf.length := by
    rw [hwlen, hwbuflen, hnew_buflen]
    omega
  have hbuf1 : p1.buffered = encode w ++ [] := by rw [hwbuffered, List.append_nil]
  have hEL := encode_length w
  refine ⟨hw2, parse_next_complete p1 w [] hlen1 hc1 hbuf1, deref_complete p1 w [] hbuf1, ?_, ?_⟩
  · -- after release: the whole buffer content was consumed
    have hdrop := discard_spec p1 ((decimalDigits w.length).length + 1 + w.length + 1)
      hlen1 (by rw [hwlen]; omega)
    unfold Netstring.drop
    dsimp only
    apply parse_next_nil
    · rw [hdrop.1, hdrop.2.1]
      omega
    · rw [hdrop.2.2, hwbuffered]
      exact List.drop_eq_nil_of_le (by omega)
  · unfold Netstring.drop
    dsimp only
    have hdrop := discard_spec p1 ((decimalDigits w.length).length + 1 + w.length + 1)
      hlen1 (by rw [hwlen]; omega)
    rw [hdrop.1, hwlen]
    omega

/-- Witness for `C1_round_trip`: payload `"hi"`, capacity 12. -/
theorem C1_round_trip_witness :
    ((NetstringParser.new 12).write (encode [104, 105])).2 = Option.none ∧
    ((NetstringParser.new 12).write (encode [104, 105])).1.parse_next =
      ParseOutcome.view (Netstring.mk 2 2) ∧
    (Netstring.mk 2 2).deref ((NetstringParser.new 12).write (encode [104, 105])).1 =
      [104, 105] ∧
    ((Netstring.mk 2 2).drop
      ((NetstringParser.new 12).write (encode [104, 105])).1).parse_next =
      ParseOutcome.needMore ∧
    ((Netstring.mk 2 2).drop
      ((NetstringParser.new 12).write (encode [104, 105])).1).len = 0 :=
  C1_round_trip 12 [104, 105] (by decide) (by decide)

/-! ## C10: chunking invariance -/


theorem incompleteFront_nil : IncompleteFront [] :=
  ⟨[], encode [], by simp, encode_ne_nil [], by norm_num⟩

theorem drainFuel_spec (ws : List (List Nat)) :
    ∀ (fuel : Nat) (p : NetstringParser) (t : List Nat),
      p.len ≤ p.buf.length → p.buf.length < 2 ^ 64 →
      p.buffered = (ws.map encode).flatten ++ t →
      IncompleteFront t →
      ws.length < fuel →
      (drainFuel fuel p).2 = ws ∧
      (drainFuel fuel p).1.buffered = t ∧
      (drainFuel fuel p).1.len = t.length ∧
      (drainFuel fuel p).1.buf.length = p.buf.length := by
  induction ws with
  | nil =>
    intro fuel p t hlen hcap hbuf hinc hfuel
    obtain ⟨w, s, hws, hs, hw⟩ := hinc
    simp only [List.map_nil, List.flatten_nil, List.nil_append] at hbuf
    have hnm : p.parse_next = ParseOutcome.needMore :=
      parse_next_incomplete p w s hlen hw (by rw [hbuf]; exact hws) hs
    cases fuel with
    | zero => omega
    | succ fuel =>
      unfold drainFuel
      rw [hnm]
      exact ⟨rfl, hbuf, by rw [← buffered_length p hlen, hbuf], rfl⟩
  | cons w ws ih =>
    intro fuel p t hlen hcap hbuf hinc hfuel
    cases fuel with
    | zero => omega
    | succ fuel =>
      simp only [List.map_cons, List.flatten_cons, List.append_assoc] at hbuf
      have hview := parse_next_complete p w _ hlen hcap hbuf
      have hderef := deref_complete p w _ hbuf
      have hkle : (decimalDigits w.length).length + 1 + w.length + 1 ≤ p.len := by
        have hbl := buffered_length p hlen
        rw [hbuf] at hbl
        simp only [List.length_append, encode_length] at hbl
        omega
      have hdropeq : (Netstring.mk ((decimalDigits w.length).length + 1) w.length).drop p =
          p.discard ((decimalDigits w.length).length + 1 + w.length + 1) := rfl
      have hdrop := discard_spec p ((decimalDigits w.length).length + 1 + w.length + 1)
        hlen hkle
      have hdbuf : (p.discard ((decimalDigits w.length).length + 1 + w.length + 1)).buffered =
          (ws.map encode).flatten ++ t := by
        rw [hdrop.2.2, hbuf]
        rw [show (decimalDigits w.length).length + 1 + w.length + 1 = (encode w).length by
          rw [encode_length]; omega]
        rw [List.drop_left]
      obtain ⟨ih1, ih2, ih3, ih4⟩ := ih fuel
        (p.discard ((decimalDigits w.length).length + 1 + w.length + 1)) t
        (by rw [hdrop.1, hdrop.2.1]; omega)
        (by rw [hdrop.2.1]; exact hcap)
        hdbuf hinc (by simpa using Nat.lt_of_succ_lt_succ hfuel)
      unfold drainFuel
      rw [hview]
      dsimp only
      rw [hdropeq]
      refine ⟨?_, ?_, ?_, ?_⟩
      · rw [hderef, ih1]
      · exact ih2
      · exact ih3
      · rw [ih4, hdrop.2.1]

theorem flatten_encode_length_ge (ws : List (List Nat)) :
    ws.length ≤ ((ws.map encode).flatten).length := by
  induction ws with
  | nil => simp
  | cons w ws ih =>
    simp only [List.map_cons, List.flatten_cons, List.length_append, List.length_cons]
    have h1 : 1 ≤ (encode w).length := by
      rw [encode_length]
      omega
    omega

theorem encode_length_le_flatten (ws₁ ws₂ : List (List Nat)) (w : List Nat) :
    (encode w).length ≤ (((ws₁ ++ w :: ws₂).map encode).flatten).length := by
  simp only [List.map_append, List.map_cons, List.flatten_append, List.flatten_cons,
    List.length_append]
  omega

/-- Any prefix `P` of a concatenation of encoded netstrings splits into
some number of whole encodings followed by a (possibly empty) strict prefix
of the next encoding. -/
theorem prefix_decompose (ws : List (List Nat)) :
    ∀ P s : List Nat, P ++ s = (ws.map encode).flatten →
    ∃ ws₁ ws₂ t,
      ws = ws₁ ++ ws₂ ∧ P = ((ws₁.map encode).flatten) ++ t ∧
      ((ws₂ = [] ∧ t = []) ∨
        (∃ w ws' s', ws₂ = w :: ws' ∧ t ++ s' = encode w ∧ s' ≠ [])) := by
  induction ws with
  | nil =>
    intro P s h
    simp only [List.map_nil, List.flatten_nil] at h
    have hP : P = [] := (List.append_eq_nil.mp h).1
    exact ⟨[], [], [], rfl, by simp [hP], Or.inl ⟨rfl, rfl⟩⟩
  | cons w ws ih =>
    intro P s h
    simp only [List.map_cons, List.flatten_cons] at h
    by_cases hc : P.length < (encode w).length
    · obtain ⟨n, hn⟩ : ∃ n, P.length = n := ⟨_, rfl⟩
      have hPpre : P = (encode w).take n := by
        have h2 : P = (encode w ++ (ws.map encode).flatten).take n := by
          rw [← hn, ← h, List.take_left]
        rw [h2, List.take_append_of_le_length (by omega)]
      refine ⟨[], w :: ws, P, rfl, by simp,
        Or.inr ⟨w, ws, (encode w).drop n, rfl, ?_, ?_⟩⟩
      · conv_lhs => rw [hPpre]
        rw [List.take_append_drop]
      · intro hnil
        have := congrArg List.length hnil
        simp only [List.length_drop, List.length_nil] at this
        omega
    · push_neg at hc
      have hPsplit : P = encode w ++ P.drop (encode w).length := by
        have h1 : P.take (encode w).length = encode w := by
          have h2 : (P ++ s).take (encode w).length = P.take (encode w).length :=
            List.take_append_of_le_length hc
          rw [← h2, h, List.take_left]
        conv_lhs => rw [← List.take_append_drop (encode w).length P]
        rw [h1]
      have hrest : P.drop (encode w).length ++ s = (ws.map encode).flatten := by
        have h3 := congrArg (List.drop (encode w).length) h
        rw [List.drop_append_of_le_length hc, List.drop_left] at h3
        exact h3
      obtain ⟨ws₁, ws₂, t, hws, hP, hdisj⟩ := ih (P.drop (encode w).length) s hrest
      refine ⟨w :: ws₁, ws₂, t, by rw [hws]; rfl, ?_, hdisj⟩
      rw [hPsplit, hP]
      simp [List.append_assoc]

/-- Invariant step for `feedChunks`: starting from a parser whose buffered
bytes `t` are a strict prefix of the next expected netstring (or empty),
feeding chunks whose bytes complete the concatenation of the encodings of
`ws` succeeds and emits exactly the payloads `ws` in order, ending empty. -/
theorem feedChunks_spec (chunks : List (List Nat)) :
    ∀ (ws : List (List Nat)) (p : NetstringParser) (t : List Nat),
      p.len ≤ p.buf.length → p.buf.length < 2 ^ 64 →
      p.buffered = t →
      ((ws = [] ∧ t = []) ∨
        (∃ w ws' s', ws = w :: ws' ∧ t ++ s' = encode w ∧ s' ≠ [])) →
      t ++ chunks.flatten = (ws.map encode).flatten →
      ((ws.map encode).flatten).length ≤ p.buf.length →
      ∃ pf, feedChunks p chunks = Option.some (pf, ws) ∧ pf.len = 0 := by
  induction chunks with
  | nil =>
    intro ws p t hlen hcap hbuf hdisj hrel hfit
    simp only [List.flatten_nil, List.append_nil] at hrel
    have hwsnil : ws = [] ∧ t = [] := by
      rcases hdisj with h | ⟨w, ws', s', hws, henc, hs⟩
      · exact h
      · exfalso
        have h1 : t.length + s'.length = (encode w).length := by
          rw [← List.length_append, henc]
        have hs1 : 0 < s'.length := List.length_pos.mpr hs
        have h2 : (encode w).length ≤ t.length := by
          rw [hrel, hws]
          simp only [List.map_cons, List.flatten_cons, List.length_append]
          omega
        omega
    obtain ⟨hws, ht⟩ := hwsnil
    subst hws
    refine ⟨p, rfl, ?_⟩
    rw [← buffered_length p hlen, hbuf, ht]
    rfl
  | cons ch cs ih =>
    intro ws p t hlen hcap hbuf hdisj hrel hfit
    have htlen : t.length = p.len := by rw [← hbuf, buffered_length p hlen]
    have hrellen := congrArg List.length hrel
    simp only [List.length_append, List.flatten_cons] at hrellen
    have hchfit : ch.length ≤ p.buf.length - p.len := by
      omega
    obtain ⟨hw2, hwlen, hwbuflen, hwbuffered⟩ := write_spec p ch hlen hchfit
    have hpair : p.write ch = ((p.write ch).1, Option.none) := by rw [← hw2]
    -- decompose the new buffered region against the expected stream
    have hPrel : (t ++ ch) ++ cs.flatten = (ws.map encode).flatten := by
      rw [List.append_assoc]
      rw [show ch ++ cs.flatten = (ch :: cs).flatten by rw [List.flatten_cons]]
      exact hrel
    obtain ⟨ws₁, ws₂, t', hws, hP, hdisj'⟩ := prefix_decompose ws (t ++ ch) cs.flatten hPrel
    have hPlen := congrArg List.length hP
    simp only [List.length_append] at hPlen
    -- the view loop after this write drains exactly ws₁
    have hinc : IncompleteFront t' := by
      rcases hdisj' with ⟨-, ht'⟩ | ⟨w, ws', s', hws2, henc, hs⟩
      · rw [ht']
        exact incompleteFront_nil
      · refine ⟨w, s', henc, hs, ?_⟩
        have hle : (encode w).length ≤ ((ws.map encode).flatten).length := by
          rw [hws, hws2]
          exact encode_length_le_flatten ws₁ ws' w
        have hdl := decimalDigits_length_pos w.length
        have hel := encode_length w
        omega
    have hlen1 : (p.write ch).1.len ≤ (p.write ch).1.buf.length := by
      rw [hwlen, hwbuflen]
      omega
    have hcap1 : (p.write ch).1.buf.length < 2 ^ 64 := by
      rw [hwbuflen]
      exact hcap
    have hbuf1 : (p.write ch).1.buffered = (ws₁.map encode).flatten ++ t' := by
      rw [hwbuffered, hbuf, hP]
    have hfg : ws₁.length < (p.write ch).1.len + 1 := by
      have h1 := flatten_encode_length_ge ws₁
      rw [hwlen]
      omega
    obtain ⟨hd1, hd2, hd3, hd4⟩ := drainFuel_spec ws₁ ((p.write ch).1.len + 1)
      (p.write ch).1 t' hlen1 hcap1 hbuf1 hinc hfg
    -- the recursive call consumes ws₂
    have hrel2 : t' ++ cs.flatten = (ws₂.map encode).flatten := by
      have h3 : ((ws₁.map encode).flatten ++ t') ++ cs.flatten =
          (ws₁.map encode).flatten ++ (ws₂.map encode).flatten := by
        rw [← hP, hPrel, hws]
        simp [List.map_append, List.flatten_append]
      rw [List.append_assoc] at h3
      exact List.append_cancel_left h3
    have hfit2 : ((ws₂.map encode).flatten).length ≤
        (drainFuel ((p.write ch).1.len + 1) (p.write ch).1).1.buf.length := by
      have h4 : ((ws.map encode).flatten).length =
          ((ws₁.map encode).flatten).length + ((ws₂.map encode).flatten).length := by
        rw [hws]
        simp [List.map_append, List.flatten_append]
      rw [hd4, hwbuflen]
      omega
    obtain ⟨pf, hf, hpf⟩ := ih ws₂
      (drainFuel ((p.write ch).1.len + 1) (p.write ch).1).1 t'
      (by rw [hd3, hd4, hwbuflen]; omega)
      (by rw [hd4]; exact hcap1)
      hd2 hdisj' hrel2 hfit2
    refine ⟨pf, ?_, hpf⟩
    unfold feedChunks
    rw [hpair]
    dsimp only
    unfold drain
    rw [hf, hd1]
    dsimp only
    rw [hws]

/-- C10: feeding a concatenation of well-formed netstrings (fitting the
buffer capacity) in arbitrary chunks, draining after each chunk, yields the
same ordered payload sequence as feeding the whole concatenation at once —
namely exactly the encoded payloads, with every write succeeding. -/
theorem C10_chunking_invariance (c : Nat) (ws chunks : List (List Nat))
    (hchunks : chunks.flatten = (ws.map encode).flatten)
    (hfit : ((ws.map encode).flatten).length ≤ c) (hc : c < 2 ^ 64) :
    (feedChunks (NetstringParser.new c) chunks).map (fun r => r.2) = Option.some ws ∧
    (feedChunks (NetstringParser.new c) [(ws.map encode).flatten]).map (fun r => r.2) =
      Option.some ws := by
  have hnew_len : (NetstringParser.new c).len = 0 := rfl
  have hnew_buflen : (NetstringParser.new c).buf.length = c := by
    simp [NetstringParser.new]
  have hnew_buffered : (NetstringParser.new c).buffered = [] := by
    simp [NetstringParser.new, NetstringParser.buffered]
  have hlen0 : (NetstringParser.new c).len ≤ (NetstringParser.new c).buf.length := by
    rw [hnew_len, hnew_buflen]
    omega
  have hcap0 : (NetstringParser.new c).buf.length < 2 ^ 64 := by
    rw [hnew_buflen]
    exact hc
  have hfit0 : ((ws.map encode).flatten).length ≤ (NetstringParser.new c).buf.length := by
    rw [hnew_buflen]
    exact hfit
  have hdisj : (ws = [] ∧ ([] : List Nat) = []) ∨
      (∃ w ws' s', ws = w :: ws' ∧ ([] : List Nat) ++ s' = encode w ∧ s' ≠ []) := by
    cases ws with
    | nil => exact Or.inl ⟨rfl, rfl⟩
    | cons w ws' => exact Or.inr ⟨w, ws', encode w, rfl, by simp, encode_ne_nil w⟩
  constructor
  · obtain ⟨pf, hf, -⟩ := feedChunks_spec chunks ws (NetstringParser.new c) []
      hlen0 hcap0 hnew_buffered hdisj (by simpa using hchunks) hfit0
    rw [hf]
    rfl
  · obtain ⟨pf, hf, -⟩ := feedChunks_spec [(ws.map encode).flatten] ws
      (NetstringParser.new c) [] hlen0 hcap0 hnew_buffered hdisj (by simp) hfit0
    rw [hf]
    rfl


/-- Witness for `C10_chunking_invariance` on the test stream
`"5:hello,5:world,3:bye,"` split into four chunks, capacity 32. -/
theorem C10_chunking_invariance_witness :
    (feedChunks (NetstringParser.new 32) chunksHWB).map (fun r => r.2) =
      Option.some wsHWB ∧
    (feedChunks (NetstringParser.new 32) [(wsHWB.map encode).flatten]).map (fun r => r.2) =
      Option.some wsHWB :=
  C10_chunking_invariance 32 wsHWB chunksHWB (by decide) (by decide) (by decide)
